import Mathlib

/-!
Verification development for the static-site generator `md_to_html.py`.

Paths are modelled as lists of components (`Path := List String`); absolute
POSIX paths are component lists measured from the filesystem root, and paths
inside the output tree are component lists relative to the output root.
Machine filesystem state is modelled by explicit trees (`FSNode`) and by
abstract query functions for the source tree (`Ctx`); fallible `stat` calls
return `Option`.  All definitions are translated from the source of
`md_to_html.py`; the resolution semantics `resolveRel` models how a relative
href is resolved against a base directory.
-/

namespace MdToHtml

abbrev Path := List String

/-- Model of Python `str.startswith`: component-wise character prefix test. -/
def strStartsWith (s pre : String) : Bool := pre.toList.isPrefixOf s.toList

/-- Model of glob-pattern matching against `*.html` (used by `rglob("*.html")`):
the file name ends with `.html`. -/
def strEndsWith (s suf : String) : Bool := suf.toList.isSuffixOf s.toList

/-- Index of the last `'.'` in a character list (`str.rfind('.')`), scanning with
an accumulator. -/
def rfindDotAux : List Char → Nat → Option Nat → Option Nat
  | [], _, acc => acc
  | c :: cs, i, acc => rfindDotAux cs (i + 1) (if c = '.' then some i else acc)

/-- Model of Python `str.rfind('.')` restricted to finding the last dot. -/
def rfindDot (s : String) : Option Nat := rfindDotAux s.toList 0 none

/-- Model of `pathlib.PurePath.suffix` for a file name: the final dot-separated
portion, where a leading dot is not a suffix and a trailing dot yields none
(cpython: `0 < i < len(name) - 1`). -/
def pathSuffix (s : String) : String :=
  match rfindDot s with
  | some i => if 0 < i && i + 1 < s.toList.length then ((s.toList).drop i).asString else ""
  | none => ""

/-- Model of `pathlib.PurePath.stem` for a file name: the name with its suffix
removed. -/
def pathStem (s : String) : String :=
  ((s.toList).take (s.toList.length - (pathSuffix s).toList.length)).asString

/-- Model of `pathlib.PurePath.with_suffix` applied to a file name: the stem with
the new suffix appended (appends when there is no old suffix). -/
def withSuffixName (newSuf s : String) : String := pathStem s ++ newSuf

/-- Model of `PurePath.with_suffix` on a whole path: the last component's suffix
is replaced. -/
def withSuffixPath (newSuf : String) : Path → Path
  | [] => []
  | [n] => [withSuffixName newSuf n]
  | n :: rest => n :: withSuffixPath newSuf rest

/-- Length of the common component prefix of two paths, as computed by
`posixpath.relpath` (`os.path.commonprefix` on component lists). -/
def commonPrefixLen : Path → Path → Nat
  | a :: as_, b :: bs => if a = b then commonPrefixLen as_ bs + 1 else 0
  | _, _ => 0

/-- Model of `os.path.relpath(target, start)` on POSIX component lists of
normalized absolute paths: climb out of the non-shared part of `start` with
`..` components, then descend into the non-shared part of `target`; the empty
result is `os.curdir` (`"."`). -/
def relpath (target start : Path) : Path :=
  let k := commonPrefixLen start target
  let rel := List.replicate (start.length - k) ".." ++ target.drop k
  if rel = [] then ["."] else rel

/-- Resolution of a relative href against a base directory: `..` removes the last
component of the accumulated path, `.` is skipped, any other component is
appended.  This is the semantics an HTML user agent (or `os.path.normpath` of
the join) gives to the links the generator emits. -/
def resolveRel (base : Path) (rel : Path) : Path :=
  rel.foldl (fun acc c => if c = ".." then acc.dropLast else if c = "." then acc else acc ++ [c]) base

theorem commonPrefixLen_le_left (a b : Path) : commonPrefixLen a b ≤ a.length := by
  induction a generalizing b with
  | nil => simp [commonPrefixLen]
  | cons x xs ih =>
    cases b with
    | nil => simp [commonPrefixLen]
    | cons y ys =>
      by_cases h : x = y
      · simpa [commonPrefixLen, h] using ih ys
      · simp [commonPrefixLen, h]

theorem commonPrefixLen_le_right (a b : Path) : commonPrefixLen a b ≤ b.length := by
  induction a generalizing b with
  | nil => simp [commonPrefixLen]
  | cons x xs ih =>
    cases b with
    | nil => simp [commonPrefixLen]
    | cons y ys =>
      by_cases h : x = y
      · simpa [commonPrefixLen, h] using ih ys
      · simp [commonPrefixLen, h]

theorem commonPrefixLen_take_eq (a b : Path) :
    a.take (commonPrefixLen a b) = b.take (commonPrefixLen a b) := by
  induction a generalizing b with
  | nil => simp [commonPrefixLen]
  | cons x xs ih =>
    cases b with
    | nil => simp [commonPrefixLen]
    | cons y ys =>
      by_cases h : x = y
      · simp [commonPrefixLen, h, ih ys]
      · simp [commonPrefixLen, h]

theorem resolveRel_append (base : Path) (xs ys : Path) :
    resolveRel base (xs ++ ys) = resolveRel (resolveRel base xs) ys := by
  simp [resolveRel, List.foldl_append]

theorem resolveRel_up (base : Path) (n : Nat) :
    resolveRel base (List.replicate n "..") = base.take (base.length - n) := by
  induction n generalizing base with
  | zero => simp [resolveRel]
  | succ m ih =>
    have hstep : resolveRel base (List.replicate (m + 1) "..")
        = resolveRel base.dropLast (List.replicate m "..") := by
      simp [resolveRel, List.replicate_succ]
    rw [hstep, ih]
    rw [List.dropLast_eq_take]
    rw [List.take_take]
    congr 1
    simp [List.length_take]
    omega

theorem resolveRel_clean (base : Path) (ys : Path)
    (h : ∀ c ∈ ys, c ≠ ".." ∧ c ≠ ".") : resolveRel base ys = base ++ ys := by
  induction ys generalizing base with
  | nil => simp [resolveRel]
  | cons c cs ih =>
    have hc := h c (by simp)
    have hcs : ∀ x ∈ cs, x ≠ ".." ∧ x ≠ "." := fun x hx => h x (by simp [hx])
    have : resolveRel base (c :: cs) = resolveRel (base ++ [c]) cs := by
      simp [resolveRel, hc.1, hc.2]
    rw [this, ih _ hcs]
    simp

theorem relpath_resolves (fromDir toPath : Path)
    (ht : ∀ c ∈ toPath, c ≠ ".." ∧ c ≠ ".") :
    resolveRel fromDir (relpath toPath fromDir) = toPath := by
  have hkl : commonPrefixLen fromDir toPath ≤ fromDir.length :=
    commonPrefixLen_le_left fromDir toPath
  have hkr : commonPrefixLen fromDir toPath ≤ toPath.length :=
    commonPrefixLen_le_right fromDir toPath
  have htake : fromDir.take (commonPrefixLen fromDir toPath)
      = toPath.take (commonPrefixLen fromDir toPath) :=
    commonPrefixLen_take_eq fromDir toPath
  simp only [relpath]
  by_cases hempty :
      (List.replicate (fromDir.length - commonPrefixLen fromDir toPath) ".."
        ++ toPath.drop (commonPrefixLen fromDir toPath)) = []
  · rw [if_pos hempty]
    rcases List.append_eq_nil.mp hempty with ⟨h1, h2⟩
    have hlen1 : fromDir.length - commonPrefixLen fromDir toPath = 0 := by
      have := congrArg List.length h1
      simpa using this
    have hlen2 : toPath.length ≤ commonPrefixLen fromDir toPath := by
      have := congrArg List.length h2
      simp [List.length_drop] at this
      omega
    have hk1 : commonPrefixLen fromDir toPath = fromDir.length := by omega
    have hk2 : commonPrefixLen fromDir toPath = toPath.length := by omega
    have heq : fromDir = toPath := by
      have h3 : fromDir.take (commonPrefixLen fromDir toPath) = fromDir := by
        rw [hk1]; exact List.take_length _
      have h4 : toPath.take (commonPrefixLen fromDir toPath) = toPath := by
        rw [hk2]; exact List.take_length _
      rw [← h3, htake, h4]
    have : resolveRel fromDir ["."] = fromDir := by simp [resolveRel]
    rw [this, heq]
  · rw [if_neg hempty]
    rw [resolveRel_append]
    rw [resolveRel_up]
    have harith : fromDir.length - (fromDir.length - commonPrefixLen fromDir toPath)
        = commonPrefixLen fromDir toPath := by omega
    rw [harith, htake]
    rw [resolveRel_clean _ _ (fun c hc => ht c (List.mem_of_mem_drop hc))]
    exact List.take_append_drop _ toPath

/-- The `try: relative_to / except ValueError:` pattern of lines 84–87 of
`convert_md_to_html`: `Path.relative_to` succeeds exactly when `root` is a
component prefix of `p`, and strips it. -/
def relative_to (p root : Path) : Option Path :=
  if root <+: p then some (p.drop root.length) else none

/-- Model of the output-path computation of `convert_md_to_html` (lines 83–91):
take the path of the document relative to the input root, falling back to
`os.path.relpath` when the document is not lexically inside the input root,
re-parent it under the output directory and replace the extension by `.html`. -/
def toOutputPath (mdPath inputRoot outputDir : Path) : Path :=
  let rel := match relative_to mdPath inputRoot with
    | some r => r
    | none => relpath mdPath inputRoot
  outputDir ++ withSuffixPath ".html" rel

/-- One step of a stable sort: insert `x` after every already-placed element `y`
with `bef y x` (so that ties keep their original order).  Together with
`pySort` this models Python `list.sort(key=..., reverse=True)`, whose result
is the stable ordering by the chosen `bef` relation. -/
def insertStable (bef : α → α → Bool) (x : α) : List α → List α
  | [] => [x]
  | y :: ys => if bef y x then y :: insertStable bef x ys else x :: y :: ys

/-- Stable sort by the relation `bef` ("may come before"), modelling Python
`list.sort` with the corresponding key and direction. -/
def pySort (bef : α → α → Bool) (l : List α) : List α :=
  l.foldl (fun acc x => insertStable bef x acc) []

theorem insertStable_perm (bef : α → α → Bool) (x : α) (l : List α) :
    List.Perm (insertStable bef x l) (x :: l) := by
  induction l with
  | nil => simp [insertStable]
  | cons y ys ih =>
    by_cases h : bef y x
    · simp only [insertStable, h, if_true]
      exact (ih.cons y).trans (List.Perm.swap x y ys)
    · simp [insertStable, h]

theorem pySort_perm (bef : α → α → Bool) (l : List α) :
    List.Perm (pySort bef l) l := by
  suffices h : ∀ (l acc : List α),
      List.Perm (l.foldl (fun acc x => insertStable bef x acc) acc) (l ++ acc) by
    simpa using h l []
  intro l
  induction l with
  | nil => intro acc; simp
  | cons x xs ih =>
    intro acc
    have h1 := ih (insertStable bef x acc)
    have h2 : List.Perm (xs ++ insertStable bef x acc) (xs ++ x :: acc) :=
      List.Perm.append_left xs (insertStable_perm bef x acc)
    have h3 : List.Perm (xs ++ x :: acc) (x :: (xs ++ acc)) := List.perm_middle
    simpa using (h1.trans h2).trans h3

theorem mem_pySort (bef : α → α → Bool) (l : List α) (a : α) :
    a ∈ pySort bef l ↔ a ∈ l := (pySort_perm bef l).mem_iff

theorem insertStable_pairwise (bef : α → α → Bool)
    (htot : ∀ a b, bef a b = true ∨ bef b a = true)
    (htrans : ∀ a b c, bef a b = true → bef b c = true → bef a c = true)
    (x : α) (l : List α) (hl : l.Pairwise (fun a b => bef a b = true)) :
    (insertStable bef x l).Pairwise (fun a b => bef a b = true) := by
  induction l with
  | nil => simp [insertStable]
  | cons y ys ih =>
    rcases List.pairwise_cons.mp hl with ⟨hy, hys⟩
    by_cases h : bef y x
    · simp only [insertStable, h, if_true]
      refine List.pairwise_cons.mpr ⟨?_, ih hys⟩
      intro z hz
      rcases List.mem_cons.mp ((insertStable_perm bef x ys).mem_iff.mp hz) with hz' | hz'
      · subst hz'; exact h
      · exact hy z hz'
    · have hxy : bef x y = true := by
        rcases htot x y with h' | h'
        · exact h'
        · exact absurd h' h
      simp only [insertStable, h, if_false]
      refine List.pairwise_cons.mpr ⟨?_, hl⟩
      intro z hz
      rcases List.mem_cons.mp hz with hz' | hz'
      · subst hz'; exact hxy
      · exact htrans x y z hxy (hy z hz')

theorem pySort_pairwise (bef : α → α → Bool)
    (htot : ∀ a b, bef a b = true ∨ bef b a = true)
    (htrans : ∀ a b c, bef a b = true → bef b c = true → bef a c = true)
    (l : List α) : (pySort bef l).Pairwise (fun a b => bef a b = true) := by
  suffices h : ∀ (l acc : List α), acc.Pairwise (fun a b => bef a b = true) →
      (l.foldl (fun acc x => insertStable bef x acc) acc).Pairwise
        (fun a b => bef a b = true) by
    exact h l [] (by simp)
  intro l
  induction l with
  | nil => intro acc hacc; simpa using hacc
  | cons x xs ih =>
    intro acc hacc
    exact ih _ (insertStable_pairwise bef htot htrans x acc hacc)

/-- A node of a filesystem tree: a plain file or a directory with an ordered
list of children (the order models the arbitrary `os.listdir` /  `iterdir`
enumeration order). -/
inductive FSNode where
  | file (name : String)
  | dir (name : String) (children : List FSNode)
deriving Repr

def nameOf : FSNode → String
  | .file n => n
  | .dir n _ => n

def isDirNode : FSNode → Bool
  | .file _ => false
  | .dir _ _ => true

/-- Immutable per-run context for index generation: the input root and the two
source-tree queries made while collecting timestamps.  `statMd p = none`
models `md_file.stat()` raising an `OSError`; `mdExists` models
`md_file.exists()`. -/
structure Ctx where
  inputRoot : Path
  mdExists : Path → Bool
  statMd : Path → Option Int

/-- The mirrored source document of an output-relative page path `p`:
`input_root / rel_path.with_suffix(".md")` (lines 132–133 and 212–213). -/
def mdMirror (ctx : Ctx) (p : Path) : Path :=
  ctx.inputRoot ++ withSuffixPath ".md" p

/-- One element of the `html_files` list of `generate_directory_sub_index`: the
pair `(item_path, ctime)` where `ctime` is `None` for directories. -/
structure SubEntry where
  isDir : Bool
  name : String
  ctime : Option Int
deriving Repr, DecidableEq

/-- `dir_index.exists()` of line 202–203: the child directory already contains
an entry named `index.html`. -/
def hasIndexFile : FSNode → Bool
  | .file _ => false
  | .dir _ cs => cs.any (fun c => nameOf c = "index.html")

mutual
/-- Model of `generate_directory_sub_index` restricted to its write effects:
the list of output-relative paths of the `index.html` files it writes, in
write order.  `π` is the output-relative path of `directory`.  On a collection
error (`genChildren` returns `.error`) the function returns without writing
its own index (lines 219–221), but keeps the child indexes already written by
recursive calls (each recursive call catches its own errors). -/
def genDir (ctx : Ctx) (π : Path) : FSNode → List Path
  | .file _ => []
  | .dir _ cs =>
    match genChildren ctx π cs with
    | (w, .ok _) => w ++ [π ++ ["index.html"]]
    | (w, .error _) => w

/-- Model of the `for item in os.listdir(directory)` loop of
`generate_directory_sub_index` (lines 196–218): returns the index files
written by recursive calls, and either the collected `html_files` entries in
enumeration order or `.error ()` when a `stat` raised inside the loop (which
makes the `except` of lines 219–221 abandon the directory). -/
def genChildren (ctx : Ctx) (π : Path) : List FSNode → List Path × Except Unit (List SubEntry)
  | [] => ([], .ok [])
  | c :: rest =>
    if nameOf c = "index.html" then genChildren ctx π rest
    else
      match c with
      | .dir n cs =>
        let w1 := if hasIndexFile (.dir n cs) then []
                  else genDir ctx (π ++ [n]) (.dir n cs)
        let pr := genChildren ctx π rest
        (w1 ++ pr.1, pr.2.map (fun es => ⟨true, n, none⟩ :: es))
      | .file n =>
        if pathSuffix n = ".html" then
          if ctx.mdExists (mdMirror ctx (π ++ [n])) then
            match ctx.statMd (mdMirror ctx (π ++ [n])) with
            | some t =>
              let pr := genChildren ctx π rest
              (pr.1, pr.2.map (fun es => ⟨false, n, some t⟩ :: es))
            | none => ([], .error ())
          else genChildren ctx π rest
        else genChildren ctx π rest
end

/-- The sort key of line 224: `(x[1] is not None, x[1] if x[1] is not None else 0)`. -/
def entryKey (e : SubEntry) : Bool × Int := (e.ctime.isSome, e.ctime.getD 0)

/-- Lexicographic `≥` on sort keys (`False < True` on booleans, as in Python). -/
def keyGE (a b : Bool × Int) : Bool := (a.1 && !b.1) || (a.1 == b.1 && decide (b.2 ≤ a.2))

/-- `a` may come before `b` in `html_files.sort(key=..., reverse=True)`:
its key is lexicographically greater or equal. -/
def subBef (a b : SubEntry) : Bool := keyGE (entryKey a) (entryKey b)

/-- One rendered `<li>` line of a listing (lines 228–242): either the
folder-marker line for a directory entry or the document-marker line (with
formatted timestamp and title = filename stem) for a page entry. -/
inductive Line where
  | dirLine (name : String)
  | pageLine (title : String) (ctime : Int)
deriving Repr, DecidableEq

/-- Rendering of one collected entry as its `<li>` line (lines 228–242). -/
def renderEntry (e : SubEntry) : Line :=
  if e.isDir then .dirLine e.name else .pageLine (pathStem e.name) (e.ctime.getD 0)

/-- The rendered list of a sub-index in final order: the collected entries
sorted by line 224's key, each rendered as one line. -/
def subIndexLines (es : List SubEntry) : List Line :=
  (pySort subBef es).map renderEntry

mutual
/-- Model of `pathlib.Path.rglob("*.html")` on one node: the output-relative
paths of all files whose name matches `*.html`, at any depth. -/
def rglobNode (π : Path) : FSNode → List Path
  | .file n => if strEndsWith n ".html" then [π ++ [n]] else []
  | .dir n cs => rglobForest (π ++ [n]) cs

/-- `rglob("*.html")` over a forest of children, in enumeration order. -/
def rglobForest (π : Path) : List FSNode → List Path
  | [] => []
  | c :: rest => rglobNode π c ++ rglobForest π rest
end

/-- Model of the collection loop of `generate_directory_first_index`
(lines 126–143): every `.html` file of the whole output tree except files
named `index.html`, kept when the mirrored source document exists and its
`stat` succeeds (a `stat` error is logged and the entry omitted), paired with
its creation timestamp. -/
def collectAllPages (ctx : Ctx) (outChildren : List FSNode) : List (Path × Int) :=
  (rglobForest [] outChildren).filterMap fun p =>
    match p.getLast? with
    | some nm =>
      if nm = "index.html" then none
      else if ctx.mdExists (mdMirror ctx p) then
        match ctx.statMd (mdMirror ctx p) with
        | some t => some (p, t)
        | none => none
      else none
    | none => none

/-- `a` may come before `b` in `all_htmls.sort(key=lambda x: x[1], reverse=True)`
(line 146): its timestamp is greater or equal. -/
def pageBef (a b : Path × Int) : Bool := decide (b.2 ≤ a.2)

/-- The entry list of the aggregate root index, in final rendered order
(lines 126–157). -/
def firstIndexEntries (ctx : Ctx) (outChildren : List FSNode) : List (Path × Int) :=
  pySort pageBef (collectAllPages ctx outChildren)

/-- Output-relative path of the index page `generate_directory_first_index`
writes for the directory at `π` (line 123); `main` calls it with
`directory = out_dir`, i.e. `π = []`. -/
def firstIndexTarget (π : Path) : Path := π ++ ["index.html"]

/-- Model of `ignore_hidden_and_git` (lines 315–317): the joined paths of the
entries named `.git` or starting with `'.'`. -/
def ignore_hidden_and_git (root : Path) (files : List String) : List Path :=
  (files.filter fun f => f = ".git" || strStartsWith f ".").map fun f => root ++ [f]

/-- An entry name `safe_rmtree` preserves: hidden (leading `'.'`) or the
version-control directory name. -/
def preservedName (n : String) : Bool := n = ".git" || strStartsWith n "."

/-- Model of the effect of `safe_rmtree` (lines 319–338) on the children of the
cleared root: the first `os.walk` iteration removes every non-ignored file
(`os.remove`) and every non-ignored directory wholesale (`shutil.rmtree`);
ignored entries are pruned from the walk and left in place with their entire
subtrees.  Later walk iterations visit only the just-deleted directories and
find nothing, so this step is the whole effect. -/
def safeRmtreeStep (π : Path) (children : List FSNode) : List FSNode :=
  children.filter fun c =>
    decide ((π ++ [nameOf c]) ∈ ignore_hidden_and_git π (children.map nameOf))

/-- Whether the forest contains an entry at the given relative path. -/
def containsPath : List FSNode → Path → Bool
  | _, [] => true
  | [], _ :: _ => false
  | c :: cs, n :: rest =>
    (match c with
     | .file m => m = n && rest.isEmpty
     | .dir m cs' => m = n && (rest.isEmpty || containsPath cs' rest))
    || containsPath cs (n :: rest)

/-- Model of `find_top_level_dirs` (lines 283–286): the names of all immediate
subdirectories of the input root, with no filtering. -/
def find_top_level_dirs (inputChildren : List FSNode) : List String :=
  (inputChildren.filter fun c => isDirNode c).map nameOf

/-- Model of `NavigationManager.add_top_level_dir` (lines 45–48): append unless
already present. -/
def add_top_level_dir (l : List String) (n : String) : List String :=
  if n ∈ l then l else l ++ [n]

/-- Model of the registration loop of `main` (lines 357–362): every top-level
directory name except `_resources` is added to the navigation manager. -/
def registerTopDirs (dirs : List String) : List String :=
  dirs.foldl (fun acc d => if d = "_resources" then acc else add_top_level_dir acc d) []

/-- Model of `NavigationManager.generate_navbar` (lines 50–67): the home link
followed by one link per registered top-level directory, each computed with
`os.path.relpath(..., current_path.parent)`.  Returned as (label, href) pairs;
`outDir` is the absolute output root and `currentPath` the absolute path of
the page being rendered. -/
def generate_navbar (outDir : Path) (topDirs : List String) (currentPath : Path) :
    List (String × Path) :=
  ("首页", relpath (outDir ++ ["index.html"]) currentPath.dropLast) ::
    topDirs.map fun d => (d, relpath (outDir ++ [d, "index.html"]) currentPath.dropLast)

/-- The directory name `copy_asset` (line 293) copies the asset tree to, inside
the output root. -/
def assetTargetName : String := "assert"

/-- Model of the index-generation loop of `main` (lines 372–383): the names of
the immediate subdirectories of the output root on which
`generate_directory_sub_index` is invoked; entries named `asset` or
`_resources` are skipped. -/
def mainIndexTargets (outChildren : List FSNode) : List String :=
  outChildren.filterMap fun c =>
    if nameOf c = "asset" then none
    else if nameOf c = "_resources" then none
    else if isDirNode c then some (nameOf c) else none

theorem genChildren_entries_sound (ctx : Ctx) (π : Path) (l : List FSNode) :
    ∀ es, (genChildren ctx π l).2 = .ok es →
      ∀ e ∈ es, e.isDir = false →
        pathSuffix e.name = ".html" ∧
        ctx.mdExists (mdMirror ctx (π ++ [e.name])) = true ∧
        ∃ t, e.ctime = some t ∧ ctx.statMd (mdMirror ctx (π ++ [e.name])) = some t := by
  induction l with
  | nil =>
    intro es hes
    simp [genChildren.eq_def] at hes
    subst hes
    intro e he
    simp at he
  | cons c rest ih =>
    intro es hes e he hdir
    rw [genChildren.eq_def] at hes
    simp only at hes
    by_cases hn : nameOf c = "index.html"
    · rw [if_pos hn] at hes
      exact ih es hes e he hdir
    · rw [if_neg hn] at hes
      match c with
      | .dir n cs =>
        simp only at hes
        rcases hpr : (genChildren ctx π rest).2 with e' | es'
        · rw [hpr] at hes; simp [Except.map] at hes
        · rw [hpr] at hes
          simp [Except.map] at hes
          subst hes
          rcases List.mem_cons.mp he with he' | he'
          · rw [he'] at hdir; simp at hdir
          · exact ih es' (by rw [hpr]) e he' hdir
      | .file n =>
        simp only at hes
        by_cases hsuf : pathSuffix n = ".html"
        · rw [if_pos hsuf] at hes
          by_cases hmd : ctx.mdExists (mdMirror ctx (π ++ [n])) = true
          · rw [if_pos hmd] at hes
            rcases hstat : ctx.statMd (mdMirror ctx (π ++ [n])) with _ | t
            · rw [hstat] at hes; simp at hes
            · rw [hstat] at hes
              rcases hpr : (genChildren ctx π rest).2 with e' | es'
              · rw [hpr] at hes; simp [Except.map] at hes
              · rw [hpr] at hes
                simp [Except.map] at hes
                subst hes
                rcases List.mem_cons.mp he with he' | he'
                · subst he'
                  refine ⟨hsuf, hmd, t, rfl, hstat⟩
                · exact ih es' (by rw [hpr]) e he' hdir
          · rw [if_neg hmd] at hes
            exact ih es hes e he hdir
        · rw [if_neg hsuf] at hes
          exact ih es hes e he hdir
theorem sizeOf_FSNode_pos (c : FSNode) : 1 ≤ sizeOf c := by
  cases c
  · simp
  · simp
    omega

theorem genChildren_writes_shape :
    ∀ (k : Nat) (l : List FSNode), sizeOf l ≤ k → ∀ (ctx : Ctx) (π : Path) (p : Path),
      p ∈ (genChildren ctx π l).1 →
      p.getLast? = some "index.html" ∧
      ∃ c ∈ l, isDirNode c = true ∧ nameOf c ≠ "index.html" ∧
        hasIndexFile c = false ∧ (π ++ [nameOf c]) <+: p := by
  intro k
  induction k with
  | zero =>
    intro l hl
    cases l with
    | nil => intro ctx π p hp; rw [genChildren.eq_def] at hp; simp at hp
    | cons c rest =>
      exfalso
      have h1 := sizeOf_FSNode_pos c
      simp at hl
  | succ k ih =>
    intro l hl ctx π p hp
    cases l with
    | nil => rw [genChildren.eq_def] at hp; simp at hp
    | cons c rest =>
      have hsz : sizeOf (c :: rest) = 1 + sizeOf c + sizeOf rest := by simp
      have hrest : sizeOf rest ≤ k := by
        have := sizeOf_FSNode_pos c
        omega
      rw [genChildren.eq_def] at hp
      simp only at hp
      by_cases hn : nameOf c = "index.html"
      · rw [if_pos hn] at hp
        obtain ⟨h1, c', hc', hrest'⟩ := ih rest hrest ctx π p hp
        exact ⟨h1, c', List.mem_cons_of_mem _ hc', hrest'⟩
      · rw [if_neg hn] at hp
        match c with
        | .dir n cs =>
          simp only at hp
          rcases List.mem_append.mp hp with hw1 | hw2
          · -- write from the recursion into this child
            by_cases hidx : hasIndexFile (FSNode.dir n cs) = true
            · rw [if_pos hidx] at hw1; simp at hw1
            · rw [if_neg hidx] at hw1
              have hcs : sizeOf cs ≤ k := by
                have : sizeOf (FSNode.dir n cs) = 1 + sizeOf n + sizeOf cs := by simp
                simp at hl
                omega
              -- unfold genDir at hw1
              rw [genDir.eq_def] at hw1
              simp only at hw1
              have hmain : p.getLast? = some "index.html" ∧ ((π ++ [n]) <+: p) := by
                rcases hgc : genChildren ctx (π ++ [n]) cs with ⟨w, res⟩
                rw [hgc] at hw1
                cases res with
                | ok es =>
                  simp only at hw1
                  rcases List.mem_append.mp hw1 with hw | hw
                  · have hw' : p ∈ (genChildren ctx (π ++ [n]) cs).1 := by rw [hgc]; exact hw
                    obtain ⟨hlast, c', _, _, _, _, hpre⟩ := ih cs hcs ctx (π ++ [n]) p hw'
                    exact ⟨hlast, ((List.prefix_append (π ++ [n]) [nameOf c']).trans hpre)⟩
                  · simp at hw
                    subst hw
                    refine ⟨?_, ?_⟩
                    · simp [List.getLast?_append]
                    · simp [List.IsPrefix]
                | error e =>
                  simp only at hw1
                  have hw' : p ∈ (genChildren ctx (π ++ [n]) cs).1 := by rw [hgc]; exact hw1
                  obtain ⟨hlast, c', _, _, _, _, hpre⟩ := ih cs hcs ctx (π ++ [n]) p hw'
                  exact ⟨hlast, ((List.prefix_append (π ++ [n]) [nameOf c']).trans hpre)⟩
              refine ⟨hmain.1, FSNode.dir n cs, List.mem_cons_self _ _, by simp [isDirNode], ?_, ?_, ?_⟩
              · simpa [nameOf] using hn
              · simpa using hidx
              · simpa [nameOf] using hmain.2
          · obtain ⟨h1, c', hc', hrest'⟩ := ih rest hrest ctx π p hw2
            exact ⟨h1, c', List.mem_cons_of_mem _ hc', hrest'⟩
        | .file n =>
          simp only at hp
          by_cases hsuf : pathSuffix n = ".html"
          · rw [if_pos hsuf] at hp
            by_cases hmd : ctx.mdExists (mdMirror ctx (π ++ [n])) = true
            · rw [if_pos hmd] at hp
              rcases hstat : ctx.statMd (mdMirror ctx (π ++ [n])) with _ | t
              · rw [hstat] at hp; simp at hp
              · rw [hstat] at hp
                simp only at hp
                obtain ⟨h1, c', hc', hrest'⟩ := ih rest hrest ctx π p hp
                exact ⟨h1, c', List.mem_cons_of_mem _ hc', hrest'⟩
            · rw [if_neg hmd] at hp
              obtain ⟨h1, c', hc', hrest'⟩ := ih rest hrest ctx π p hp
              exact ⟨h1, c', List.mem_cons_of_mem _ hc', hrest'⟩
          · rw [if_neg hsuf] at hp
            obtain ⟨h1, c', hc', hrest'⟩ := ih rest hrest ctx π p hp
            exact ⟨h1, c', List.mem_cons_of_mem _ hc', hrest'⟩
theorem genChildren_ok_of_stat_ok (ctx : Ctx) (hok : ∀ q, (ctx.statMd q).isSome = true)
    (l : List FSNode) : ∀ π : Path, ∃ es, (genChildren ctx π l).2 = .ok es := by
  induction l with
  | nil => intro π; exact ⟨[], by simp [genChildren.eq_def]⟩
  | cons c rest ih =>
    intro π
    rw [genChildren.eq_def]
    simp only
    by_cases hn : nameOf c = "index.html"
    · rw [if_pos hn]; exact ih π
    · rw [if_neg hn]
      match c with
      | .dir n cs =>
        simp only
        obtain ⟨es, hes⟩ := ih π
        exact ⟨⟨true, n, none⟩ :: es, by simp [hes, Except.map]⟩
      | .file n =>
        simp only
        by_cases hsuf : pathSuffix n = ".html"
        · rw [if_pos hsuf]
          by_cases hmd : ctx.mdExists (mdMirror ctx (π ++ [n])) = true
          · rw [if_pos hmd]
            rcases hstat : ctx.statMd (mdMirror ctx (π ++ [n])) with _ | t
            · have := hok (mdMirror ctx (π ++ [n]))
              rw [hstat] at this
              simp at this
            · simp only
              obtain ⟨es, hes⟩ := ih π
              exact ⟨⟨false, n, some t⟩ :: es, by simp [hes, Except.map]⟩
          · rw [if_neg hmd]; exact ih π
        · rw [if_neg hsuf]; exact ih π

theorem genChildren_child_index_written (ctx : Ctx)
    (hok : ∀ q, (ctx.statMd q).isSome = true) (l : List FSNode) :
    ∀ π : Path, ∀ c ∈ l, ∀ (n : String) (cs : List FSNode), c = FSNode.dir n cs →
      n ≠ "index.html" → hasIndexFile c = false →
      (π ++ [n] ++ ["index.html"]) ∈ (genChildren ctx π l).1 := by
  induction l with
  | nil => intro π c hc; simp at hc
  | cons c0 rest ih =>
    intro π c hc n cs hceq hn hidx
    rw [genChildren.eq_def]
    simp only
    rcases List.mem_cons.mp hc with hc' | hc'
    · subst hc'
      subst hceq
      have hnn : nameOf (FSNode.dir n cs) = n := rfl
      rw [if_neg (by rw [hnn]; exact hn)]
      simp only
      rw [if_neg (by rw [hidx]; simp)]
      rw [genDir.eq_def]
      simp only
      obtain ⟨es, hes⟩ := genChildren_ok_of_stat_ok ctx hok cs (π ++ [n])
      rcases hgc : genChildren ctx (π ++ [n]) cs with ⟨w, res⟩
      rw [hgc] at hes
      simp at hes
      subst hes
      simp
    · -- c is in rest
      by_cases hn0 : nameOf c0 = "index.html"
      · rw [if_pos hn0]
        exact ih π c hc' n cs hceq hn hidx
      · rw [if_neg hn0]
        match c0 with
        | .dir n0 cs0 =>
          simp only
          have hm := ih π c hc' n cs hceq hn hidx
          refine List.mem_append.mpr (Or.inr ?_)
          simpa using hm
        | .file n0 =>
          simp only
          by_cases hsuf : pathSuffix n0 = ".html"
          · rw [if_pos hsuf]
            by_cases hmd : ctx.mdExists (mdMirror ctx (π ++ [n0])) = true
            · rw [if_pos hmd]
              rcases hstat : ctx.statMd (mdMirror ctx (π ++ [n0])) with _ | t
              · have := hok (mdMirror ctx (π ++ [n0]))
                rw [hstat] at this
                simp at this
              · simp only
                exact ih π c hc' n cs hceq hn hidx
            · rw [if_neg hmd]
              exact ih π c hc' n cs hceq hn hidx
          · rw [if_neg hsuf]
            exact ih π c hc' n cs hceq hn hidx
theorem last_component_eq_of_pref {π p : Path} {a b : String}
    (h1 : (π ++ [a]) <+: p) (h2 : (π ++ [b]) <+: p) : a = b := by
  rcases List.prefix_or_prefix_of_prefix h1 h2 with h | h
  · have heq : π ++ [a] = π ++ [b] := h.eq_of_length (by simp)
    have := List.append_cancel_left heq
    simpa using this
  · have heq : π ++ [b] = π ++ [a] := h.eq_of_length (by simp)
    have := List.append_cancel_left heq
    simpa using this.symm

theorem genDir_writes_cases (ctx : Ctx) (π : Path) (nm : String) (l : List FSNode) :
    ∀ p ∈ genDir ctx π (.dir nm l),
      p = π ++ ["index.html"] ∨
      ∃ c ∈ l, isDirNode c = true ∧ nameOf c ≠ "index.html" ∧
        hasIndexFile c = false ∧ (π ++ [nameOf c]) <+: p := by
  intro p hp
  rw [genDir.eq_def] at hp
  simp only at hp
  rcases hgc : genChildren ctx π l with ⟨w, res⟩
  rw [hgc] at hp
  cases res with
  | ok es =>
    simp only at hp
    rcases List.mem_append.mp hp with hw | hw
    · right
      exact (genChildren_writes_shape (sizeOf l) l le_rfl ctx π p (by rw [hgc]; exact hw)).2
    · left; simpa using hw
  | error e =>
    simp only at hp
    right
    exact (genChildren_writes_shape (sizeOf l) l le_rfl ctx π p (by rw [hgc]; exact hp)).2

theorem genDir_writes_index_name (ctx : Ctx) (π : Path) (nd : FSNode) :
    ∀ p ∈ genDir ctx π nd, p.getLast? = some "index.html" := by
  intro p hp
  match nd with
  | .file n => rw [genDir.eq_def] at hp; simp at hp
  | .dir nm l =>
    rw [genDir.eq_def] at hp
    simp only at hp
    rcases hgc : genChildren ctx π l with ⟨w, res⟩
    rw [hgc] at hp
    cases res with
    | ok es =>
      simp only at hp
      rcases List.mem_append.mp hp with hw | hw
      · exact (genChildren_writes_shape (sizeOf l) l le_rfl ctx π p (by rw [hgc]; exact hw)).1
      · have : p = π ++ ["index.html"] := by simpa using hw
        subst this
        simp [List.getLast?_append]
    | error e =>
      simp only at hp
      exact (genChildren_writes_shape (sizeOf l) l le_rfl ctx π p (by rw [hgc]; exact hp)).1

theorem error_no_own_index (ctx : Ctx) (π : Path) (nm : String) (l : List FSNode)
    (e : Unit) (herr : (genChildren ctx π l).2 = .error e) :
    (π ++ ["index.html"]) ∉ genDir ctx π (.dir nm l) := by
  intro hp
  rw [genDir.eq_def] at hp
  simp only at hp
  rcases hgc : genChildren ctx π l with ⟨w, res⟩
  rw [hgc] at herr
  simp at herr
  rw [hgc] at hp
  rw [herr] at hp
  simp only at hp
  obtain ⟨-, c, -, -, hnc, -, hpre⟩ :=
    genChildren_writes_shape (sizeOf l) l le_rfl ctx π _ (by rw [hgc]; exact hp)
  exact hnc (last_component_eq_of_pref hpre (List.prefix_refl _))

theorem mem_collectAllPages (ctx : Ctx) (outChildren : List FSNode) (p : Path) (t : Int) :
    (p, t) ∈ collectAllPages ctx outChildren ↔
      (p ∈ rglobForest [] outChildren ∧
        (∃ nm, p.getLast? = some nm ∧ nm ≠ "index.html") ∧
        ctx.mdExists (mdMirror ctx p) = true ∧
        ctx.statMd (mdMirror ctx p) = some t) := by
  unfold collectAllPages
  rw [List.mem_filterMap]
  constructor
  · rintro ⟨q, hq, hf⟩
    rcases hgl : q.getLast? with _ | nm
    · rw [hgl] at hf; simp at hf
    · rw [hgl] at hf
      simp only at hf
      by_cases h1 : nm = "index.html"
      · rw [if_pos h1] at hf; simp at hf
      · rw [if_neg h1] at hf
        by_cases h2 : ctx.mdExists (mdMirror ctx q) = true
        · rw [if_pos h2] at hf
          rcases hstat : ctx.statMd (mdMirror ctx q) with _ | t'
          · rw [hstat] at hf; simp at hf
          · rw [hstat] at hf
            simp only [Option.some_inj, Prod.mk.injEq] at hf
            obtain ⟨hq1, hq2⟩ := hf
            subst hq1
            subst hq2
            exact ⟨hq, ⟨nm, hgl, h1⟩, h2, hstat⟩
        · rw [if_neg h2] at hf; simp at hf
  · rintro ⟨hq, ⟨nm, hgl, h1⟩, h2, hstat⟩
    refine ⟨p, hq, ?_⟩
    rw [hgl]
    simp only
    rw [if_neg h1, if_pos h2, hstat]
theorem pageBef_total (a b : Path × Int) : pageBef a b = true ∨ pageBef b a = true := by
  simp [pageBef]
  omega

theorem pageBef_trans (a b c : Path × Int) (h1 : pageBef a b = true) (h2 : pageBef b c = true) :
    pageBef a c = true := by
  simp [pageBef] at h1 h2 ⊢
  omega

theorem mem_add_top_level_dir (l : List String) (n m : String) (h : m ∈ l) :
    m ∈ add_top_level_dir l n := by
  unfold add_top_level_dir
  split
  · exact h
  · simp [h]

theorem self_mem_add_top_level_dir (l : List String) (n : String) :
    n ∈ add_top_level_dir l n := by
  unfold add_top_level_dir
  split
  · assumption
  · simp

theorem mem_registerTopDirs (dirs : List String) (n : String)
    (hn : n ∈ dirs) (hres : n ≠ "_resources") : n ∈ registerTopDirs dirs := by
  suffices h : ∀ acc, (n ∈ acc ∨ n ∈ dirs) →
      n ∈ dirs.foldl (fun acc d => if d = "_resources" then acc else add_top_level_dir acc d) acc by
    exact h [] (Or.inr hn)
  clear hn
  induction dirs with
  | nil =>
    intro acc hacc
    rcases hacc with h | h
    · simpa using h
    · simp at h
  | cons d rest ih =>
    intro acc hacc
    simp only [List.foldl_cons]
    by_cases hd : d = "_resources"
    · rw [if_pos hd]
      apply ih
      rcases hacc with h | h
      · exact Or.inl h
      · rcases List.mem_cons.mp h with h' | h'
        · exact absurd (h' ▸ hd) hres
        · exact Or.inr h'
    · rw [if_neg hd]
      apply ih
      rcases hacc with h | h
      · exact Or.inl (mem_add_top_level_dir acc d n h)
      · rcases List.mem_cons.mp h with h' | h'
        · subst h'
          exact Or.inl (self_mem_add_top_level_dir acc n)
        · exact Or.inr h'

theorem safeRmtreeStep_eq_filter (π : Path) (children : List FSNode) :
    safeRmtreeStep π children = children.filter fun c => preservedName (nameOf c) := by
  unfold safeRmtreeStep
  apply List.filter_congr
  intro c hc
  have hmem : ((π ++ [nameOf c]) ∈ ignore_hidden_and_git π (children.map nameOf))
      ↔ preservedName (nameOf c) = true := by
    unfold ignore_hidden_and_git
    rw [List.mem_map]
    constructor
    · rintro ⟨f, hf, heq⟩
      have hfc : f = nameOf c := by
        have := List.append_cancel_left heq
        simpa using this
      subst hfc
      exact (List.mem_filter.mp hf).2
    · intro hpres
      exact ⟨nameOf c, List.mem_filter.mpr ⟨List.mem_map_of_mem _ hc, hpres⟩, rfl⟩
  by_cases hpres : preservedName (nameOf c) = true
  · rw [hpres, decide_eq_true_iff]
    exact hmem.mpr hpres
  · have h1 : preservedName (nameOf c) = false := by
      cases h : preservedName (nameOf c)
      · rfl
      · exact absurd h hpres
    rw [h1, decide_eq_false_iff_not]
    intro hm
    exact hpres (hmem.mp hm)

/-- Context in which every mirrored source document exists and every `stat`
succeeds with timestamp 100. -/
def exCtxOk : Ctx := ⟨["in"], fun _ => true, fun _ => some 100⟩

/-- Directory listing holding one already-indexed subdirectory and one page. -/
def exChildrenC1 : List FSNode := [.dir "sub" [.file "index.html"], .file "a.html"]

/-- Entries the sub-index builder collects for `exChildrenC1` in enumeration
order: the directory entry, then the page entry. -/
def exEntriesC1 : List SubEntry := [⟨true, "sub", none⟩, ⟨false, "a.html", some 100⟩]

/-- C1: the claim fails on the code.  For a directory with one subdirectory
`sub` and one page `a.html`, the collected entries are sorted by line 224's
key `(x[1] is not None, ...)` with `reverse=True`, which puts the page entry
(key `(True, 100)`) before the directory entry (key `(False, 0)`): the
rendered listing is the page line followed by the directory line, the
opposite of the claimed invariant and of the code's own comment on line 223
(directories in front).  This theorem evaluates the sub-index builder at that
failing input. -/
theorem C1_page_line_precedes_directory_line :
    (genChildren exCtxOk [] exChildrenC1).2 = .ok exEntriesC1 ∧
    subIndexLines exEntriesC1 = [.pageLine "a" 100, .dirLine "sub"] := by
  constructor
  · simp [genChildren.eq_def, genDir.eq_def, hasIndexFile, nameOf, mdMirror, exCtxOk,
      exChildrenC1, exEntriesC1, Except.map,
      show pathSuffix "a.html" = ".html" from by decide]
  · simp [subIndexLines, pySort, insertStable, subBef, keyGE, entryKey, renderEntry, exEntriesC1,
      show pathStem "a.html" = "a" from by decide]

/-- C2: the aggregate root index (`generate_directory_first_index`) collects
exactly the `.html` files of the entire output tree that are not named
`index.html` and whose mirrored source document exists and stats
successfully, pairs each with its source creation timestamp, lists them flat
(each entry is a bare (path, timestamp) pair with no directory grouping) in
non-increasing timestamp order, and the root invocation writes the result to
the output root's `index.html`. -/
theorem C2_first_index_correct (ctx : Ctx) (outChildren : List FSNode) :
    (∀ e ∈ firstIndexEntries ctx outChildren,
        e.1 ∈ rglobForest [] outChildren ∧
        (∃ nm, e.1.getLast? = some nm ∧ nm ≠ "index.html") ∧
        ctx.mdExists (mdMirror ctx e.1) = true ∧
        ctx.statMd (mdMirror ctx e.1) = some e.2) ∧
    (∀ p ∈ rglobForest [] outChildren, ∀ nm t, p.getLast? = some nm → nm ≠ "index.html" →
        ctx.mdExists (mdMirror ctx p) = true → ctx.statMd (mdMirror ctx p) = some t →
        (p, t) ∈ firstIndexEntries ctx outChildren) ∧
    (firstIndexEntries ctx outChildren).Pairwise (fun a b => b.2 ≤ a.2) ∧
    firstIndexTarget [] = ["index.html"] := by
  refine ⟨?_, ?_, ?_, rfl⟩
  · intro e he
    have hc : (e.1, e.2) ∈ collectAllPages ctx outChildren := by
      rw [Prod.mk.eta]
      exact (mem_pySort pageBef _ e).mp he
    exact (mem_collectAllPages ctx outChildren e.1 e.2).mp hc
  · intro p hp nm t hgl hnm hmd hstat
    unfold firstIndexEntries
    rw [mem_pySort]
    exact (mem_collectAllPages ctx outChildren p t).mpr ⟨hp, ⟨nm, hgl, hnm⟩, hmd, hstat⟩
  · have hpw := pySort_pairwise pageBef pageBef_total pageBef_trans (collectAllPages ctx outChildren)
    refine hpw.imp ?_
    intro a b h
    simpa [pageBef] using h

/-- Witness for C2: in a concrete output tree the surviving page
`docs/a.html` appears in the aggregate index with its timestamp. -/
theorem C2_witness :
    (["docs", "a.html"], (100 : Int)) ∈ firstIndexEntries exCtxOk [.dir "docs" [.file "a.html"]] :=
  (C2_first_index_correct exCtxOk [.dir "docs" [.file "a.html"]]).2.1 ["docs", "a.html"]
    (by simp [rglobForest.eq_def, rglobNode.eq_def,
      show strEndsWith "a.html" ".html" = true from by decide])
    "a.html" 100 rfl (by decide) rfl rfl

/-- Context in which the single document `in/top/a.md` exists but `stat`
raises (returns `none`); every other document stats successfully. -/
def exCtxC3 : Ctx := ⟨["in"], fun _ => true,
  fun p => if p = ["in", "top", "a.md"] then none else some 50⟩

/-- C3 counterexample: the claim fails for the sub-index builder.  Directory
`top` holds pages `a.html` and `b.html`, and `stat` fails only on the source
of `a.html`.  Because the `except` of lines 219–221 wraps the whole
collection loop and returns, the builder abandons the directory: the
collection result is an error and the builder's write list is empty, so no
`top/index.html` is generated at all — the error does not merely omit the
single affected entry. -/
theorem C3_counterexample :
    (genChildren exCtxC3 ["top"] [.file "a.html", .file "b.html"]).2 = .error () ∧
    genDir exCtxC3 ["top"] (.dir "top" [.file "a.html", .file "b.html"]) = [] := by
  constructor
  · simp [genChildren.eq_def, nameOf, mdMirror, exCtxC3,
      show pathSuffix "a.html" = ".html" from by decide,
      show withSuffixPath ".md" ["top", "a.html"] = ["top", "a.md"] from by decide]
  · simp [genDir.eq_def, genChildren.eq_def, nameOf, mdMirror, exCtxC3,
      show pathSuffix "a.html" = ".html" from by decide,
      show withSuffixPath ".md" ["top", "a.html"] = ["top", "a.md"] from by decide]

/-- C3 amended: in the aggregate root index builder a `stat` error on an
individual source document only omits that entry (every document that stats
successfully still gets its entry); in the per-directory sub-index builder a
`stat` error while collecting makes the directory-level handler abandon the
directory, so its own `index.html` is not written (child indexes already
written by recursive calls are kept). -/
theorem C3_amended (ctx : Ctx) (outChildren : List FSNode) (p : Path)
    (π : Path) (nm : String) (l : List FSNode) :
    (ctx.statMd (mdMirror ctx p) = none →
        ∀ t, (p, t) ∉ firstIndexEntries ctx outChildren) ∧
    (∀ q ∈ rglobForest [] outChildren, ∀ m t, q.getLast? = some m → m ≠ "index.html" →
        ctx.mdExists (mdMirror ctx q) = true → ctx.statMd (mdMirror ctx q) = some t →
        (q, t) ∈ firstIndexEntries ctx outChildren) ∧
    (∀ e, (genChildren ctx π l).2 = .error e →
        (π ++ ["index.html"]) ∉ genDir ctx π (.dir nm l)) := by
  refine ⟨?_, ?_, ?_⟩
  · intro hstat t hmem
    have hc : (p, t) ∈ collectAllPages ctx outChildren :=
      (mem_pySort pageBef _ (p, t)).mp hmem
    have := ((mem_collectAllPages ctx outChildren p t).mp hc).2.2.2
    rw [hstat] at this
    exact Option.noConfusion this
  · intro q hq m t hgl hnm hmd hstat
    unfold firstIndexEntries
    rw [mem_pySort]
    exact (mem_collectAllPages ctx outChildren q t).mpr ⟨hq, ⟨m, hgl, hnm⟩, hmd, hstat⟩
  · intro e herr
    exact error_no_own_index ctx π nm l e herr

/-- Witness for C3: at the concrete failing directory of `exCtxC3` the
directory's own index is not among the written files. -/
theorem C3_witness :
    (["top", "index.html"]) ∉
      genDir exCtxC3 ["top"] (.dir "top" [.file "a.html", .file "b.html"]) :=
  (C3_amended exCtxC3 [] [] ["top"] "top" [.file "a.html", .file "b.html"]).2.2 ()
    (by simp [genChildren.eq_def, nameOf, mdMirror, exCtxC3,
      show pathSuffix "a.html" = ".html" from by decide,
      show withSuffixPath ".md" ["top", "a.html"] = ["top", "a.md"] from by decide])

/-- Output tree of a run: the copied asset tree (which `copy_asset` names
`assert`), the copied resources, and one content section. -/
def exOutC4 : List FSNode :=
  [.dir "assert" [.file "style.css"], .dir "_resources" [.file "r.bin"],
   .dir "docs" [.file "a.html"]]

/-- C4: the claim fails on the code for the asset subtree.  `copy_asset`
(line 293) copies the asset tree to an output directory named `assert`, but
the index loop of `main` (lines 374–377) skips only the exact names `asset`
and `_resources` — although its own comment says it intends to skip the
copied asset directory.  So the copied asset subtree is among the loop's
targets and the sub-index builder writes `assert/index.html` inside it.  The
`_resources` subtree is correctly skipped. -/
theorem C4_assert_subtree_gets_indexed :
    mainIndexTargets exOutC4 = [assetTargetName, "docs"] ∧
    genDir exCtxOk [assetTargetName] (.dir "assert" [.file "style.css"])
      = [[assetTargetName, "index.html"]] ∧
    "_resources" ∉ mainIndexTargets exOutC4 := by
  refine ⟨by decide, ?_, by decide⟩
  simp [genDir.eq_def, genChildren.eq_def, nameOf, assetTargetName,
    show pathSuffix "style.css" = ".css" from by decide]

/-- Output tree whose nested `.git` sits inside the non-hidden directory
`sub`, next to a page and a top-level hidden file. -/
def exTreeC5 : List FSNode :=
  [.dir "sub" [.dir ".git" [.file "HEAD"]], .file "b.html", .file ".keep"]

/-- C5 counterexample: clearing the tree `[sub/[.git/[HEAD]], b.html, .keep]`
deletes `sub` wholesale with `shutil.rmtree`, destroying the nested `.git`
even though its name is one `ignore_hidden_and_git` preserves; only the
top-level hidden entry survives.  So a preserved-name entry is not left
untouched "wherever it sits in the tree", and the ancestor `sub` of that
entry does not survive either. -/
theorem C5_counterexample :
    containsPath exTreeC5 ["sub", ".git"] = true ∧
    containsPath (safeRmtreeStep [] exTreeC5) ["sub", ".git"] = false ∧
    (safeRmtreeStep [] exTreeC5).map nameOf = [".keep"] := by
  have hstep : (safeRmtreeStep [] exTreeC5).map nameOf = [".keep"] := by decide
  have hstep2 : safeRmtreeStep [] exTreeC5 = [.file ".keep"] := by
    simp [safeRmtreeStep, exTreeC5, ignore_hidden_and_git, nameOf,
      show strStartsWith "sub" "." = false from by decide,
      show strStartsWith "b.html" "." = false from by decide,
      show strStartsWith ".keep" "." = true from by decide]
  refine ⟨?_, ?_, hstep⟩
  · simp [containsPath.eq_def, exTreeC5, nameOf]
  · rw [hstep2]
    simp [containsPath.eq_def]

/-- C5 amended: clearing the output tree deletes every direct child of the
output root except those whose name starts with `'.'` or equals `.git`; those
preserved top-level entries are left untouched in place with their entire
subtrees (and the root itself survives), but the preservation applies only at
the top level — everything inside a deleted non-preserved directory is
removed with it, including hidden or `.git` entries nested below the top
level. -/
theorem C5_clear_is_top_level_only (π : Path) (children : List FSNode) :
    safeRmtreeStep π children = children.filter fun c => preservedName (nameOf c) :=
  safeRmtreeStep_eq_filter π children

/-- C6: orphan exclusion.  A page whose mirrored source document does not
exist appears in no generated listing: the sub-index builder's collected
entries (and their sorted form) contain no page entry for it, and the
aggregate root index contains no entry for it; moreover index generation
writes only files named `index.html`, so the orphan page file itself is never
overwritten (and nothing is deleted — the model of index generation has no
delete operation). -/
theorem C6_orphan_excluded (ctx : Ctx) (π : Path) (l : List FSNode)
    (outChildren : List FSNode) (n : String) (p : Path)
    (hsub : ctx.mdExists (mdMirror ctx (π ++ [n])) = false)
    (hagg : ctx.mdExists (mdMirror ctx p) = false) :
    (∀ es, (genChildren ctx π l).2 = .ok es → ∀ t,
        (⟨false, n, t⟩ : SubEntry) ∉ es ∧
        (⟨false, n, t⟩ : SubEntry) ∉ pySort subBef es) ∧
    (∀ t, (p, t) ∉ firstIndexEntries ctx outChildren) ∧
    (∀ nd, ∀ q ∈ genDir ctx π nd, q.getLast? = some "index.html") := by
  refine ⟨?_, ?_, ?_⟩
  · intro es hes t
    have habs : (⟨false, n, t⟩ : SubEntry) ∉ es := by
      intro hmem
      have := genChildren_entries_sound ctx π l es hes ⟨false, n, t⟩ hmem rfl
      rw [this.2.1] at hsub
      exact Bool.noConfusion hsub
    refine ⟨habs, ?_⟩
    intro hmem
    exact habs ((mem_pySort subBef es _).mp hmem)
  · intro t hmem
    have hc : (p, t) ∈ collectAllPages ctx outChildren :=
      (mem_pySort pageBef _ (p, t)).mp hmem
    have := ((mem_collectAllPages ctx outChildren p t).mp hc).2.2.1
    rw [this] at hagg
    exact Bool.noConfusion hagg
  · intro nd q hq
    exact genDir_writes_index_name ctx π nd q hq

/-- Context in which no mirrored source document exists (every page is an
orphan). -/
def exCtxOrphan : Ctx := ⟨["in"], fun _ => false, fun _ => some 0⟩

/-- Witness for C6: a concrete orphan page is absent from the aggregate
index. -/
theorem C6_witness :
    (["a.html"], (3 : Int)) ∉ firstIndexEntries exCtxOrphan [.file "a.html"] :=
  (C6_orphan_excluded exCtxOrphan [] [] [.file "a.html"] "a.html" ["a.html"] rfl rfl).2.1 3

/-- C7: relative-link correctness.  For every referring directory and every
target path (component lists of normalized absolute POSIX paths, so no `..`
or `.` components), the link computed by `os.path.relpath`, resolved against
the referring directory, resolves back exactly to the target — including the
same-directory case (where the computed link is `"."`) and links crossing up
through arbitrarily many parent levels. -/
theorem C7_relative_link_roundtrip (fromDir toPath : Path)
    (ht : ∀ c ∈ toPath, c ≠ ".." ∧ c ≠ ".") :
    resolveRel fromDir (relpath toPath fromDir) = toPath :=
  relpath_resolves fromDir toPath ht

/-- Witness for C7: a cross-branch link two levels up, a child link, and the
degenerate same-path case all resolve back to their targets. -/
theorem C7_witness :
    resolveRel ["o", "a", "b"] (relpath ["o", "c", "d", "e.html"] ["o", "a", "b"])
        = ["o", "c", "d", "e.html"] ∧
    resolveRel ["o", "a"] (relpath ["o", "a", "x.html"] ["o", "a"]) = ["o", "a", "x.html"] ∧
    resolveRel ["o"] (relpath ["o"] ["o"]) = ["o"] :=
  ⟨C7_relative_link_roundtrip ["o", "a", "b"] ["o", "c", "d", "e.html"] (by decide),
   C7_relative_link_roundtrip ["o", "a"] ["o", "a", "x.html"] (by decide),
   C7_relative_link_roundtrip ["o"] ["o"] (by decide)⟩

/-- C8: the sub-index recursion.  Under error-free `stat` and distinct child
names, for a child directory (not named `index.html`): if it has no index
page yet, the recursion is entered and the child's own `index.html` is among
the written files; if its index page already exists, the recursive call is
skipped and no written path lies in that child's subtree (no write path has
the child's path as a prefix), i.e. re-visiting an already-indexed directory
performs no writes in that subtree. -/
theorem C8_recursion_skips_indexed_children (ctx : Ctx) (π : Path) (nm : String)
    (l : List FSNode) (hok : ∀ q, (ctx.statMd q).isSome = true)
    (hnodup : (l.map nameOf).Nodup) (c : FSNode) (hc : c ∈ l)
    (n : String) (cs : List FSNode) (hceq : c = FSNode.dir n cs) (hn : n ≠ "index.html") :
    (hasIndexFile c = false → (π ++ [n] ++ ["index.html"]) ∈ genDir ctx π (.dir nm l)) ∧
    (hasIndexFile c = true → ∀ p ∈ genDir ctx π (.dir nm l), ¬ ((π ++ [n]) <+: p)) := by
  constructor
  · intro hidx
    rw [genDir.eq_def]
    simp only
    obtain ⟨es, hes⟩ := genChildren_ok_of_stat_ok ctx hok l π
    have hm := genChildren_child_index_written ctx hok l π c hc n cs hceq hn hidx
    rcases hgc : genChildren ctx π l with ⟨w, res⟩
    rw [hgc] at hes
    simp only at hes
    subst hes
    simp only
    rw [hgc] at hm
    exact List.mem_append.mpr (Or.inl hm)
  · intro hidx p hp hpre
    rcases genDir_writes_cases ctx π nm l p hp with heq | ⟨c', hc', hdir', hn', hidx', hpre'⟩
    · subst heq
      exact hn (last_component_eq_of_pref hpre (List.prefix_refl _))
    · have hnn : n = nameOf c' := last_component_eq_of_pref hpre hpre'
      have hcc : c = c' := by
        apply List.inj_on_of_nodup_map hnodup hc hc'
        rw [hceq]
        simpa [nameOf] using hnn
      rw [← hcc, hceq] at hidx'
      rw [hceq] at hidx
      rw [hidx] at hidx'
      exact Bool.noConfusion hidx'

/-- Witness for C8: recursing from `top` into the not-yet-indexed child `sub`
writes `top/sub/index.html`. -/
theorem C8_witness :
    (["top"] ++ ["sub"] ++ ["index.html"]) ∈
      genDir exCtxOk ["top"] (.dir "top" [.dir "sub" []]) :=
  (C8_recursion_skips_indexed_children exCtxOk ["top"] "top" [.dir "sub" []]
    (fun _ => rfl) (by decide) (.dir "sub" []) (by simp) "sub" [] rfl (by decide)).1 rfl

/-- C9: mapping a document path to its output path is total (the model is a
total function).  When the input root is a component prefix of the document
path, the result is the output root plus the root-relative path with the
extension replaced by `.html`, and it lies under the output root; otherwise
the `os.path.relpath` fallback of lines 86–87 is used, and the resulting path
can escape the output root, as the concrete instance
`toOutputPath x/doc.md a o = o/../x/doc.html` shows. -/
theorem C9_to_output_path_total (mdPath inputRoot outputDir : Path) :
    (inputRoot <+: mdPath →
      toOutputPath mdPath inputRoot outputDir
          = outputDir ++ withSuffixPath ".html" (mdPath.drop inputRoot.length) ∧
      outputDir <+: toOutputPath mdPath inputRoot outputDir) ∧
    (¬ inputRoot <+: mdPath →
      toOutputPath mdPath inputRoot outputDir
          = outputDir ++ withSuffixPath ".html" (relpath mdPath inputRoot)) ∧
    resolveRel [] (toOutputPath ["x", "doc.md"] ["a"] ["o"]) = ["x", "doc.html"] ∧
    ¬ (["o"] <+: resolveRel [] (toOutputPath ["x", "doc.md"] ["a"] ["o"])) := by
  refine ⟨?_, ?_, by decide, by decide⟩
  · intro h
    constructor
    · unfold toOutputPath relative_to
      rw [if_pos h]
    · unfold toOutputPath relative_to
      rw [if_pos h]
      exact List.prefix_append _ _
  · intro h
    unfold toOutputPath relative_to
    rw [if_neg h]

/-- Witness for C9: a document inside the input root maps to the mirrored
output path with the page extension. -/
theorem C9_witness :
    toOutputPath ["in", "b.md"] ["in"] ["o"]
        = ["o"] ++ withSuffixPath ".html" (["in", "b.md"].drop (["in"] : Path).length) :=
  ((C9_to_output_path_total ["in", "b.md"] ["in"] ["o"]).1 (by decide)).1

/-- C10: every immediate subdirectory of the input root other than one named
exactly `_resources` — hidden directories such as `.git` included, since
`find_top_level_dirs` applies no hidden-name filtering — is registered as a
top-level navigation section, and the navbar generated for any page contains
a link labelled with that section's name. -/
theorem C10_top_level_sections (inputChildren : List FSNode) (outDir : Path)
    (currentPath : Path) (c : FSNode) (hc : c ∈ inputChildren) (hdir : isDirNode c = true)
    (hname : nameOf c ≠ "_resources") :
    nameOf c ∈ registerTopDirs (find_top_level_dirs inputChildren) ∧
    ∃ pr ∈ generate_navbar outDir (registerTopDirs (find_top_level_dirs inputChildren))
        currentPath, pr.1 = nameOf c := by
  have hreg : nameOf c ∈ registerTopDirs (find_top_level_dirs inputChildren) := by
    apply mem_registerTopDirs _ _ _ hname
    unfold find_top_level_dirs
    exact List.mem_map_of_mem _ (List.mem_filter.mpr ⟨hc, hdir⟩)
  refine ⟨hreg, ?_⟩
  refine ⟨(nameOf c, relpath (outDir ++ [nameOf c, "index.html"]) currentPath.dropLast),
    ?_, rfl⟩
  unfold generate_navbar
  refine List.mem_cons_of_mem _ ?_
  exact List.mem_map_of_mem _ hreg

/-- Input root with a hidden `.git` directory, a content section and a loose
document. -/
def exInputC10 : List FSNode := [.dir ".git" [], .dir "notes" [], .file "a.md"]

/-- Witness for C10: the hidden directory `.git` is indeed registered as a
navigation section. -/
theorem C10_witness :
    ".git" ∈ registerTopDirs (find_top_level_dirs exInputC10) :=
  (C10_top_level_sections exInputC10 ["o"] ["o", "x.html"] (.dir ".git" [])
    (by simp [exInputC10]) rfl (by decide)).1
